import Mathlib

/-!
Shallow embedding of the plain recurrent cell of `snli/CPP/attentive_rnn.h`
(classes `LookupLayer` and `RNN`), together with spec-side definitions of the
forward recurrence and of the BPTT gradient accumulators, and theorems
settling the claims about them.

Modelling conventions:
* `double` arithmetic is idealised as a linear ordered field `F`; the claims
  about exact softmax/gradient values are stated at `F := ℝ` with the real
  `exp`, `log` and `sqrt`.
* `std::exp`, `std::log` and the activation collaborator
  (`EvaluateActivation` / `DerivateActivation`, declared out of scope by the
  spec) are passed in as function parameters `aexp`, `alog`, `φ`, `φd`.
* Eigen column matrices indexed by a timestep (`x_`, `h_`, `dx`) are modelled
  as functions `ℕ → Fin n → F`, zero-initialised and written with
  `Function.update`, exactly mirroring `setZero` plus column assignment.
* A fatal Eigen assertion / out-of-bounds column access is modelled by an
  `Option` result of `none`.
-/

namespace AttentiveRnn

variable {F : Type} [LinearOrderedField F] {D V H C : ℕ}

/-- Parameters of the plain `RNN` cell together with the `LookupLayer`
embedding matrix `E_` it owns: `E_ : D×(V+1)`, `Wxh_ : H×D`, `Whh_ : H×H`,
`Why_ : C×H`, `bh_ : H`, `by_ : C`, `h0_ : H`, and the flag
`use_hidden_start_`.  The field `by_` of the source is called `bY` here
because `by` is reserved in Lean. -/
structure Params (F : Type) (D V H C : ℕ) where
  E : Matrix (Fin D) (Fin (V + 1)) F
  Wxh : Matrix (Fin H) (Fin D) F
  Whh : Matrix (Fin H) (Fin H) F
  Why : Matrix (Fin C) (Fin H) F
  bh : Fin H → F
  bY : Fin C → F
  h0 : Fin H → F
  useHiddenStart : Bool

/-- The mutable state of one `RNN` object: the parameters plus the
per-example forward trace members `x_`, `h_`, `y_`, `p_`. -/
structure NetState (F : Type) (D V H C : ℕ) where
  par : Params F D V H C
  x : ℕ → Fin D → F
  h : ℕ → Fin H → F
  y : Fin C → F
  p : Fin C → F

/-- `LookupLayer::RunForwardLookupLayer`: walk the sequence, setting column
`t` of `x` to column `1 + wid` of `E`.  The source asserts
`wid >= 0 && wid < E_.cols()`; token ids are natural numbers here so only the
upper bound can fail, and an assertion failure is modelled as `none`. -/
def runForwardLookupLayer (E : Matrix (Fin D) (Fin (V + 1)) F) :
    List ℕ → ℕ → (ℕ → Fin D → F) → Option (ℕ → Fin D → F)
  | [], _, x => some x
  | w :: rest, t, x =>
      if hw : 1 + w < V + 1 then
        runForwardLookupLayer E rest (t + 1)
          (Function.update x t (fun i => E i ⟨1 + w, hw⟩))
      else
        none

/-- `LookupLayer::RunBackwardLookupLayer`: for each position `t` in order,
`E_.col(1 + wid) -= learning_rate * dX.col(t)`.  The source does not check
the id; an out-of-range id would be an out-of-bounds write (undefined
behaviour), modelled here as leaving `E` unchanged and excluded by the
validity hypotheses of every theorem touching this branch. -/
def runBackwardLookupLayer (rate : F) (dX : ℕ → Fin D → F) :
    Matrix (Fin D) (Fin (V + 1)) F → List ℕ → ℕ → Matrix (Fin D) (Fin (V + 1)) F
  | E, [], _ => E
  | E, w :: rest, t =>
      if hw : 1 + w < V + 1 then
        runBackwardLookupLayer rate dX
          (Matrix.updateColumn E ⟨1 + w, hw⟩
            (fun i => E i ⟨1 + w, hw⟩ - rate * dX t i))
          rest (t + 1)
      else
        runBackwardLookupLayer rate dX E rest (t + 1)

/-- The forward recurrence loop of `RNN::RunForwardPass`: `n` remaining
iterations starting at index `t`, carrying `hprev` and writing column `t` of
the hidden-state matrix to
`Activate(Wxh_ * x_.col(t) + bh_ + Whh_ * hprev)` at each step. -/
def forwardLoop (φ : F → F) (Wxh : Matrix (Fin H) (Fin D) F)
    (Whh : Matrix (Fin H) (Fin H) F) (bh : Fin H → F) (x : ℕ → Fin D → F) :
    ℕ → ℕ → (Fin H → F) → (ℕ → Fin H → F) → (ℕ → Fin H → F)
  | _, 0, _, hmat => hmat
  | t, n + 1, hprev, hmat =>
      forwardLoop φ Wxh Whh bh x (t + 1) n
        (fun i => φ ((Wxh.mulVec (x t) + bh + Whh.mulVec hprev) i))
        (Function.update hmat t
          (fun i => φ ((Wxh.mulVec (x t) + bh + Whh.mulVec hprev) i)))

/-- Largest coefficient of a vector (`maxCoeff`); junk value `0` for an empty
vector, in which case Eigen would assert. -/
def vmax (y : Fin C → F) : F :=
  if hC : 0 < C then Finset.univ.sup' ⟨⟨0, hC⟩, Finset.mem_univ _⟩ y else 0

/-- Modelled from the spec: the `LogSumExp` helper lives in `nn_utils.h`,
which is not part of the sources; the spec defines it as
`logsum = log(Σ exp(y_i - max(y))) + max(y)`. -/
def logSumExp (aexp alog : F → F) (y : Fin C → F) : F :=
  alog (∑ i, aexp (y i - vmax y)) + vmax y

/-- `RNN::RunForwardPass`: lookup, hidden recurrence, then readout from the
last timestep only: `y_ = Why_ * h_.col(T-1) + by_` and
`p_ = (y_.array() - logsum).exp()`.  For an empty sequence the readout index
`t = size - 1` is `-1` and `h_.col(-1)` is an out-of-bounds access (a fatal
Eigen assertion), modelled as `none`. -/
def runForwardPass (aexp alog φ : F → F) (seq : List ℕ)
    (st : NetState F D V H C) : Option (NetState F D V H C) :=
  match runForwardLookupLayer st.par.E seq 0 (fun _ _ => 0) with
  | none => none
  | some x =>
      let hinit : Fin H → F := if st.par.useHiddenStart then st.par.h0 else fun _ => 0
      let hmat := forwardLoop φ st.par.Wxh st.par.Whh st.par.bh x 0 seq.length
        hinit (fun _ _ => 0)
      if 0 < seq.length then
        let y := st.par.Why.mulVec (hmat (seq.length - 1)) + st.par.bY
        let p := fun i => aexp (y i - logSumExp aexp alog y)
        some ⟨st.par, x, hmat, y, p⟩
      else
        none

/-- First index of the maximal coefficient (`p_.maxCoeff(&prediction)`, which
scans in order and replaces the running maximum only on strict increase);
`none` for an empty vector, where Eigen would assert. -/
def argmaxIdx (p : Fin C → F) : Option (Fin C) :=
  if hC : 0 < C then
    some ((List.finRange C).foldl (fun best i => if p best < p i then i else best) ⟨0, hC⟩)
  else
    none

/-- `RNN::Run`: a forward pass followed by an argmax prediction. -/
def run (aexp alog φ : F → F) (seq : List ℕ) (st : NetState F D V H C) :
    Option (NetState F D V H C × Fin C) :=
  (runForwardPass aexp alog φ seq st).bind fun st1 =>
    (argmaxIdx st1.p).map fun i => (st1, i)

/-- The local accumulators of `RNN::RunBackwardPass` that are threaded
through the time loop: `dWxh`, `dbh`, `dWhh`, `dhnext` and the input
gradient matrix `dx`. -/
structure BpttState (F : Type) (D H : ℕ) where
  dWxh : Matrix (Fin H) (Fin D) F
  dbh : Fin H → F
  dWhh : Matrix (Fin H) (Fin H) F
  dhnext : Fin H → F
  dx : ℕ → Fin D → F

/-- One iteration of the backward time loop at index `t`:
`dh = dhnext`, `dhraw = DerivateActivation(h.col(t)) ⊙ dh`, accumulate
`dWxh += dhraw·x.col(t)ᵀ`, `dbh += dhraw`, `dWhh += dhraw·h.col(t-1)ᵀ`
(only when `t > 0`), `dhnext = Whhᵀ·dhraw`, `dx.col(t) = Wxhᵀ·dhraw`. -/
def bpttStep (φd : F → F) (Wxh : Matrix (Fin H) (Fin D) F)
    (Whh : Matrix (Fin H) (Fin H) F) (x : ℕ → Fin D → F) (h : ℕ → Fin H → F)
    (t : ℕ) (s : BpttState F D H) : BpttState F D H :=
  let dhraw : Fin H → F := fun i => φd (h t i) * s.dhnext i
  ⟨s.dWxh + Matrix.vecMulVec dhraw (x t),
   s.dbh + dhraw,
   if 0 < t then s.dWhh + Matrix.vecMulVec dhraw (h (t - 1)) else s.dWhh,
   Whh.transpose.mulVec dhraw,
   Function.update s.dx t (Wxh.transpose.mulVec dhraw)⟩

/-- The backward time loop `for (int t = size - 1; t >= 0; --t)`:
`bpttLoop … m s` performs the iterations `t = m - 1` down to `t = 0`. -/
def bpttLoop (φd : F → F) (Wxh : Matrix (Fin H) (Fin D) F)
    (Whh : Matrix (Fin H) (Fin H) F) (x : ℕ → Fin D → F) (h : ℕ → Fin H → F) :
    ℕ → BpttState F D H → BpttState F D H
  | 0, s => s
  | t + 1, s => bpttLoop φd Wxh Whh x h t (bpttStep φd Wxh Whh x h t s)

/-- `RNN::RunBackwardPass`: seed `dy = p_; dy[label] -= 1`, accumulate
`dWhy += dy·h_.col(T-1)ᵀ`, `dby += dy`, `dhnext += Whyᵀ·dy`, run the time
loop, subtract every accumulated gradient scaled by the learning rate from
its parameter (including `h0_` when `use_hidden_start_`), and finally call
`RunBackwardLookupLayer(seq, dx, rate)`.  For an empty sequence
`h_.col(-1)` is an out-of-bounds access, modelled as `none`. -/
def runBackwardPass (φd : F → F) (seq : List ℕ) (label : Fin C) (rate : F)
    (st : NetState F D V H C) : Option (NetState F D V H C) :=
  if 0 < seq.length then
    let dy : Fin C → F := Function.update st.p label (st.p label - 1)
    let dWhy := Matrix.vecMulVec dy (st.h (seq.length - 1))
    let dby := dy
    let s := bpttLoop φd st.par.Wxh st.par.Whh st.x st.h seq.length
      ⟨0, 0, 0, st.par.Why.transpose.mulVec dy, fun _ _ => 0⟩
    some ⟨⟨runBackwardLookupLayer rate s.dx st.par.E seq 0,
           st.par.Wxh - rate • s.dWxh,
           st.par.Whh - rate • s.dWhh,
           st.par.Why - rate • dWhy,
           st.par.bh - rate • s.dbh,
           st.par.bY - rate • dby,
           if st.par.useHiddenStart then st.par.h0 - rate • s.dhnext else st.par.h0,
           st.par.useHiddenStart⟩,
          st.x, st.h, st.y, st.p⟩
  else
    none

/-- `RNN::InitializeParameters`, weight-matrix case: entry `(i, j)` of an
`m × n` matrix whose entries are filled row by row starting at stream offset
`off`, with value `max * (2*rand()/RAND_MAX - 1)` where
`max = coeff * sqrt(6 / (num_inputs + num_outputs))`, `num_inputs = n`
(columns), `num_outputs = m` (rows), and `coeff = 4` for the logistic
activation and `1` otherwise.  The C `rand()` stream produced by
`srand(1234)` is abstracted as `rng : ℕ → ℕ` with bound `randMax`. -/
def initWeight (sqrtF : F → F) (logistic : Bool) (rng : ℕ → ℕ) (randMax : ℕ)
    (off : ℕ) {m n : ℕ} : Matrix (Fin m) (Fin n) F := fun i j =>
  (if logistic then (4 : F) else 1) * sqrtF (6 / ((n : F) + (m : F))) *
    (2 * (rng (off + (i : ℕ) * n + (j : ℕ)) : F) / (randMax : F) - 1)

/-- `RNN::InitializeParameters` (the non-load branch): collect all
parameters, zero every bias/state vector, and fill the weight matrices in
registration order (`embeddings`, `Wxh`, `Whh`, `Why`) from the seeded
`rand()` stream. -/
def initializeParameters (sqrtF : F → F) (logistic : Bool) (rng : ℕ → ℕ)
    (randMax : ℕ) (useHiddenStart : Bool) : Params F D V H C :=
  ⟨initWeight sqrtF logistic rng randMax 0,
   initWeight sqrtF logistic rng randMax (D * (V + 1)),
   initWeight sqrtF logistic rng randMax (D * (V + 1) + H * D),
   initWeight sqrtF logistic rng randMax (D * (V + 1) + H * D + H * H),
   0, 0, 0, useHiddenStart⟩

section SpecSide

/-!
Spec-side definitions, written from the words of the specification
(`spec.md` §4.2): the forward recurrence, the softmax-cross-entropy seed and
the BPTT gradient accumulators in closed form.
-/

/-- Spec forward recurrence: `h[:,t] = Activate(Wxh·X[:,t] + bh + Whh·h_prev)`
with `h_prev` the previous column (`hinit` before the first step). -/
def hSpec (φ : F → F) (Wxh : Matrix (Fin H) (Fin D) F)
    (Whh : Matrix (Fin H) (Fin H) F) (bh : Fin H → F) (x : ℕ → Fin D → F)
    (hinit : Fin H → F) : ℕ → Fin H → F
  | 0 => fun i => φ ((Wxh.mulVec (x 0) + bh + Whh.mulVec hinit) i)
  | t + 1 => fun i =>
      φ ((Wxh.mulVec (x (t + 1)) + bh +
          Whh.mulVec (hSpec φ Wxh Whh bh x hinit t)) i)

/-- Spec softmax-cross-entropy seed: `dy = p; dy[ℓ] -= 1`. -/
def dySpec (p : Fin C → F) (label : Fin C) : Fin C → F :=
  Function.update p label (p label - 1)

/-- Spec BPTT recurrence for `draw = Derivative(h[:,t]) ⊙ dh`, indexed from
the top of the loop: `k` counts down from the last timestep, so `k = 0` is
`t = T - 1` where `dh` is the seed `dh0 = Whyᵀ·dy`, and each further step
uses `dh = Whhᵀ·draw` of the step above. -/
def drawSpecRev (φd : F → F) (Whh : Matrix (Fin H) (Fin H) F)
    (h : ℕ → Fin H → F) (dh0 : Fin H → F) (T : ℕ) : ℕ → Fin H → F
  | 0 => fun i => φd (h (T - 1) i) * dh0 i
  | k + 1 => fun i =>
      φd (h (T - 2 - k) i) *
        Whh.transpose.mulVec (drawSpecRev φd Whh h dh0 T k) i

/-- Spec `draw` at timestep `t` (for `t < T`): `draw_t` with
`dh_{T-1} = Whyᵀ·dy` and `dh_t = Whhᵀ·draw_{t+1}` for earlier steps (the
output contributes only at the final step). -/
def drawSpec (φd : F → F) (Whh : Matrix (Fin H) (Fin H) F)
    (Why : Matrix (Fin C) (Fin H) F) (h : ℕ → Fin H → F) (p : Fin C → F)
    (label : Fin C) (T : ℕ) (t : ℕ) : Fin H → F :=
  drawSpecRev φd Whh h (Why.transpose.mulVec (dySpec p label)) T (T - 1 - t)

/-- Spec accumulator `dWxh = Σ_{t<T} draw_t · X[:,t]ᵀ`. -/
def dWxhSpec (φd : F → F) (Whh : Matrix (Fin H) (Fin H) F)
    (Why : Matrix (Fin C) (Fin H) F) (x : ℕ → Fin D → F) (h : ℕ → Fin H → F)
    (p : Fin C → F) (label : Fin C) (T : ℕ) : Matrix (Fin H) (Fin D) F :=
  ∑ t ∈ Finset.range T, Matrix.vecMulVec (drawSpec φd Whh Why h p label T t) (x t)

/-- Spec accumulator `dbh = Σ_{t<T} draw_t`. -/
def dbhSpec (φd : F → F) (Whh : Matrix (Fin H) (Fin H) F)
    (Why : Matrix (Fin C) (Fin H) F) (h : ℕ → Fin H → F) (p : Fin C → F)
    (label : Fin C) (T : ℕ) : Fin H → F :=
  ∑ t ∈ Finset.range T, drawSpec φd Whh Why h p label T t

/-- Spec accumulator `dWhh = Σ_{0<t<T} draw_t · h[:,t-1]ᵀ` (the `t = 0` term
is skipped, per the `if t>0` guard of the spec and the source). -/
def dWhhSpec (φd : F → F) (Whh : Matrix (Fin H) (Fin H) F)
    (Why : Matrix (Fin C) (Fin H) F) (h : ℕ → Fin H → F) (p : Fin C → F)
    (label : Fin C) (T : ℕ) : Matrix (Fin H) (Fin H) F :=
  ∑ t ∈ Finset.Ico 1 T, Matrix.vecMulVec (drawSpec φd Whh Why h p label T t) (h (t - 1))

/-- Spec input gradient `dX[:,t] = Wxhᵀ·draw_t`. -/
def dxSpec (φd : F → F) (Wxh : Matrix (Fin H) (Fin D) F)
    (Whh : Matrix (Fin H) (Fin H) F) (Why : Matrix (Fin C) (Fin H) F)
    (h : ℕ → Fin H → F) (p : Fin C → F) (label : Fin C) (T : ℕ) (t : ℕ) :
    Fin D → F :=
  Wxh.transpose.mulVec (drawSpec φd Whh Why h p label T t)

end SpecSide

/-- The value carried by `hprev` when the forward loop is entered at index
`t0`: the initial hidden state for `t0 = 0`, the previous spec column
otherwise. -/
def hPrevSpec (φ : F → F) (Wxh : Matrix (Fin H) (Fin D) F)
    (Whh : Matrix (Fin H) (Fin H) F) (bh : Fin H → F) (x : ℕ → Fin D → F)
    (hinit : Fin H → F) : ℕ → Fin H → F
  | 0 => hinit
  | k + 1 => hSpec φ Wxh Whh bh x hinit k

lemma runForwardLookupLayer_valid (E : Matrix (Fin D) (Fin (V + 1)) F)
    (seq : List ℕ) (hv : ∀ w ∈ seq, w < V) :
    ∀ (t0 : ℕ) (x0 : ℕ → Fin D → F), ∃ xr,
      runForwardLookupLayer E seq t0 x0 = some xr ∧
      (∀ k w, seq.get? k = some w →
        ∃ j : Fin (V + 1), (j : ℕ) = 1 + w ∧ xr (t0 + k) = fun i => E i j) ∧
      (∀ t, t < t0 ∨ t0 + seq.length ≤ t → xr t = x0 t) := by
  induction seq with
  | nil =>
      intro t0 x0
      exact ⟨x0, rfl, by intro k w hk; simp at hk, fun t _ => rfl⟩
  | cons w rest ih =>
      intro t0 x0
      have hw : w < V := hv w (List.mem_cons_self _ _)
      have hw1 : 1 + w < V + 1 := by omega
      have hv' : ∀ u ∈ rest, u < V := fun u hu => hv u (List.mem_cons_of_mem _ hu)
      obtain ⟨xr, hrun, hcols, hframe⟩ :=
        ih hv' (t0 + 1) (Function.update x0 t0 (fun i => E i ⟨1 + w, hw1⟩))
      refine ⟨xr, ?_, ?_, ?_⟩
      · simpa [runForwardLookupLayer, hw1] using hrun
      · intro k u hk
        match k, hk with
        | 0, hk =>
            have hu : u = w := by simpa using hk.symm
            refine ⟨⟨1 + w, hw1⟩, by simp [hu], ?_⟩
            have hfr := hframe t0 (Or.inl (by omega))
            rw [Nat.add_zero, hfr, Function.update_same]
        | k + 1, hk =>
            obtain ⟨j, hj, hcol⟩ := hcols k u (by simpa using hk)
            exact ⟨j, hj, by rw [show t0 + (k + 1) = t0 + 1 + k by omega]; exact hcol⟩
      · intro t ht
        have h1 : xr t = Function.update x0 t0 (fun i => E i ⟨1 + w, hw1⟩) t := by
          refine hframe t ?_
          rcases ht with ht | ht
          · exact Or.inl (by omega)
          · exact Or.inr (by simp at ht ⊢; omega)
        have h2 : t ≠ t0 := by
          rcases ht with ht | ht
          · omega
          · simp at ht; omega
        rw [h1, Function.update_noteq h2]

lemma runForwardLookupLayer_invalid (E : Matrix (Fin D) (Fin (V + 1)) F)
    (seq : List ℕ) (hbad : ∃ w ∈ seq, V ≤ w) :
    ∀ (t0 : ℕ) (x0 : ℕ → Fin D → F),
      runForwardLookupLayer E seq t0 x0 = none := by
  induction seq with
  | nil => simp at hbad
  | cons w rest ih =>
      intro t0 x0
      by_cases hw1 : 1 + w < V + 1
      · have : ∃ u ∈ rest, V ≤ u := by
          obtain ⟨u, hu, huV⟩ := hbad
          rcases List.mem_cons.mp hu with h | h
          · omega
          · exact ⟨u, h, huV⟩
        simp [runForwardLookupLayer, hw1, ih this]
      · simp [runForwardLookupLayer, hw1]

lemma forwardLoop_eq (φ : F → F) (Wxh : Matrix (Fin H) (Fin D) F)
    (Whh : Matrix (Fin H) (Fin H) F) (bh : Fin H → F) (x : ℕ → Fin D → F)
    (hinit : Fin H → F) :
    ∀ (n t0 : ℕ) (hm0 : ℕ → Fin H → F),
      ∀ t, forwardLoop φ Wxh Whh bh x t0 n
          (hPrevSpec φ Wxh Whh bh x hinit t0) hm0 t =
        if t0 ≤ t ∧ t < t0 + n then hSpec φ Wxh Whh bh x hinit t else hm0 t := by
  intro n
  induction n with
  | zero =>
      intro t0 hm0 t
      simp only [forwardLoop]
      rw [if_neg (by omega)]
  | succ n ih =>
      intro t0 hm0 t
      have hstep : (fun i => φ ((Wxh.mulVec (x t0) + bh +
          Whh.mulVec (hPrevSpec φ Wxh Whh bh x hinit t0)) i)) =
          hSpec φ Wxh Whh bh x hinit t0 := by
        cases t0 with
        | zero => rfl
        | succ k => rfl
      have hrec : forwardLoop φ Wxh Whh bh x t0 (n + 1)
          (hPrevSpec φ Wxh Whh bh x hinit t0) hm0 =
          forwardLoop φ Wxh Whh bh x (t0 + 1) n
            (hPrevSpec φ Wxh Whh bh x hinit (t0 + 1))
            (Function.update hm0 t0 (hSpec φ Wxh Whh bh x hinit t0)) := by
        simp only [forwardLoop, hstep]
        rfl
      rw [hrec, ih (t0 + 1) _ t]
      by_cases ht0 : t = t0
      · subst ht0
        rw [if_neg (by omega), if_pos (by omega), Function.update_same]
      · rw [Function.update_noteq ht0]
        by_cases hc : t0 ≤ t ∧ t < t0 + (n + 1)
        · rw [if_pos (by omega), if_pos hc]
        · rw [if_neg (by omega), if_neg hc]

lemma runForwardPass_char (aexp alog φ : F → F) (seq : List ℕ)
    (st : NetState F D V H C) (hv : ∀ w ∈ seq, w < V) (hT : 0 < seq.length) :
    ∃ st', runForwardPass aexp alog φ seq st = some st' ∧
      st'.par = st.par ∧
      (∀ k w, seq.get? k = some w →
        ∃ j : Fin (V + 1), (j : ℕ) = 1 + w ∧ st'.x k = fun i => st.par.E i j) ∧
      (∀ t, seq.length ≤ t → st'.x t = fun _ => 0) ∧
      (∀ t, t < seq.length → st'.h t =
        hSpec φ st.par.Wxh st.par.Whh st.par.bh st'.x
          (if st.par.useHiddenStart then st.par.h0 else fun _ => 0) t) ∧
      (∀ t, seq.length ≤ t → st'.h t = fun _ => 0) ∧
      st'.y = st.par.Why.mulVec (st'.h (seq.length - 1)) + st.par.bY ∧
      st'.p = fun i => aexp (st'.y i - logSumExp aexp alog st'.y) := by
  obtain ⟨xr, hrun, hcols, hframe⟩ :=
    runForwardLookupLayer_valid st.par.E seq hv 0 (fun _ _ => 0)
  have hloop := forwardLoop_eq φ st.par.Wxh st.par.Whh st.par.bh xr
    (if st.par.useHiddenStart then st.par.h0 else fun _ => 0) seq.length 0
    (fun _ _ => 0)
  simp only [hPrevSpec] at hloop
  refine ⟨⟨st.par, xr,
    forwardLoop φ st.par.Wxh st.par.Whh st.par.bh xr 0 seq.length
      (if st.par.useHiddenStart then st.par.h0 else fun _ => 0) (fun _ _ => 0),
    st.par.Why.mulVec
      (forwardLoop φ st.par.Wxh st.par.Whh st.par.bh xr 0 seq.length
        (if st.par.useHiddenStart then st.par.h0 else fun _ => 0) (fun _ _ => 0)
        (seq.length - 1)) + st.par.bY,
    fun i =>
      aexp ((st.par.Why.mulVec
        (forwardLoop φ st.par.Wxh st.par.Whh st.par.bh xr 0 seq.length
          (if st.par.useHiddenStart then st.par.h0 else fun _ => 0) (fun _ _ => 0)
          (seq.length - 1)) + st.par.bY) i -
        logSumExp aexp alog
          (st.par.Why.mulVec
            (forwardLoop φ st.par.Wxh st.par.Whh st.par.bh xr 0 seq.length
              (if st.par.useHiddenStart then st.par.h0 else fun _ => 0) (fun _ _ => 0)
              (seq.length - 1)) + st.par.bY))⟩,
    ?_, rfl, ?_, ?_, ?_, ?_, rfl, rfl⟩
  · unfold runForwardPass
    rw [hrun]
    simp only [hT, if_true]
  · intro k w hk
    simpa using hcols k w hk
  · intro t ht
    exact hframe t (Or.inr (by omega))
  · intro t ht
    dsimp only
    rw [hloop t, if_pos ⟨Nat.zero_le t, by omega⟩]
  · intro t ht
    dsimp only
    rw [hloop t, if_neg (by omega)]

lemma runBackwardLookupLayer_frame (rate : F) (dX : ℕ → Fin D → F)
    (seq : List ℕ) (j : Fin (V + 1)) (hj : ∀ w ∈ seq, (j : ℕ) ≠ 1 + w) :
    ∀ (E : Matrix (Fin D) (Fin (V + 1)) F) (t0 : ℕ) (i : Fin D),
      runBackwardLookupLayer rate dX E seq t0 i j = E i j := by
  induction seq with
  | nil => intro E t0 i; rfl
  | cons u rest ih =>
      intro E t0 i
      have hju : (j : ℕ) ≠ 1 + u := hj u (List.mem_cons_self _ _)
      have hj' : ∀ w ∈ rest, (j : ℕ) ≠ 1 + w := fun w hw => hj w (List.mem_cons_of_mem _ hw)
      by_cases hu : 1 + u < V + 1
      · rw [runBackwardLookupLayer, dif_pos hu, ih hj',
          Matrix.updateColumn_ne (by simpa [Fin.ext_iff] using hju)]
      · rw [runBackwardLookupLayer, dif_neg hu, ih hj']

lemma runBackwardLookupLayer_col (rate : F) (dX : ℕ → Fin D → F)
    (seq : List ℕ) (w : ℕ) (hw : 1 + w < V + 1) :
    ∀ (E : Matrix (Fin D) (Fin (V + 1)) F) (t0 : ℕ) (i : Fin D),
      runBackwardLookupLayer rate dX E seq t0 i ⟨1 + w, hw⟩ =
        E i ⟨1 + w, hw⟩ -
          rate * ∑ k ∈ Finset.range seq.length,
            if seq.get? k = some w then dX (t0 + k) i else 0 := by
  induction seq with
  | nil => intro E t0 i; simp [runBackwardLookupLayer]
  | cons u rest ih =>
      intro E t0 i
      have hsum : ∑ k ∈ Finset.range (rest.length + 1),
          (if (u :: rest).get? k = some w then dX (t0 + k) i else 0) =
          (∑ k ∈ Finset.range rest.length,
            if rest.get? k = some w then dX (t0 + 1 + k) i else 0) +
          (if u = w then dX t0 i else 0) := by
        rw [Finset.sum_range_succ']
        congr 1
        · refine Finset.sum_congr rfl fun k _ => ?_
          have : t0 + (k + 1) = t0 + 1 + k := by omega
          simp [this]
        · simp
      by_cases hu : 1 + u < V + 1
      · rw [runBackwardLookupLayer, dif_pos hu, ih, List.length_cons, hsum]
        by_cases huw : u = w
        · subst huw
          have hfin : (⟨1 + u, hw⟩ : Fin (V + 1)) = ⟨1 + u, hu⟩ := rfl
          have hcond : (if u = u then dX t0 i else 0) = dX t0 i := if_pos rfl
          rw [hfin, Matrix.updateColumn_self, hcond]
          ring
        · rw [Matrix.updateColumn_ne (by simpa [Fin.ext_iff] using fun h => huw (by omega)),
            if_neg huw, add_zero]
      · have huw : ¬u = w := by omega
        rw [runBackwardLookupLayer, dif_neg hu, ih, List.length_cons, hsum,
          if_neg huw, add_zero]

lemma runBackwardLookupLayer_congr (rate : F) (dX dX' : ℕ → Fin D → F)
    (seq : List ℕ) :
    ∀ (E : Matrix (Fin D) (Fin (V + 1)) F) (t0 : ℕ),
      (∀ t, t0 ≤ t → t < t0 + seq.length → dX t = dX' t) →
      runBackwardLookupLayer rate dX E seq t0 =
        runBackwardLookupLayer rate dX' E seq t0 := by
  induction seq with
  | nil => intro E t0 _; rfl
  | cons u rest ih =>
      intro E t0 hag
      have h0 : dX t0 = dX' t0 := hag t0 le_rfl (by simp)
      have hrest : ∀ t, t0 + 1 ≤ t → t < t0 + 1 + rest.length → dX t = dX' t :=
        fun t h1 h2 => hag t (by omega) (by simp; omega)
      by_cases hu : 1 + u < V + 1
      · rw [runBackwardLookupLayer, dif_pos hu, runBackwardLookupLayer, dif_pos hu,
          h0, ih _ _ hrest]
      · rw [runBackwardLookupLayer, dif_neg hu, runBackwardLookupLayer, dif_neg hu,
          ih _ _ hrest]

/-- The value of `dhnext` on entry to backward loop iteration `m - 1` (`dh0`
on entry to the whole loop, `Whhᵀ·draw_m` afterwards). -/
def dhEnter (φd : F → F) (Whh : Matrix (Fin H) (Fin H) F)
    (Why : Matrix (Fin C) (Fin H) F) (h : ℕ → Fin H → F) (p : Fin C → F)
    (label : Fin C) (T m : ℕ) : Fin H → F :=
  if m = T then Why.transpose.mulVec (dySpec p label)
  else Whh.transpose.mulVec (drawSpec φd Whh Why h p label T m)

lemma bpttLoop_eq (φd : F → F) (Wxh : Matrix (Fin H) (Fin D) F)
    (Whh : Matrix (Fin H) (Fin H) F) (Why : Matrix (Fin C) (Fin H) F)
    (x : ℕ → Fin D → F) (h : ℕ → Fin H → F) (p : Fin C → F) (label : Fin C)
    (T : ℕ) (hT : 0 < T) :
    ∀ (m : ℕ), m ≤ T →
      ∀ (A : Matrix (Fin H) (Fin D) F) (b : Fin H → F)
        (Cw : Matrix (Fin H) (Fin H) F) (dxa : ℕ → Fin D → F),
      bpttLoop φd Wxh Whh x h m
          ⟨A, b, Cw, dhEnter φd Whh Why h p label T m, dxa⟩ =
        ⟨A + ∑ t ∈ Finset.range m,
            Matrix.vecMulVec (drawSpec φd Whh Why h p label T t) (x t),
         b + ∑ t ∈ Finset.range m, drawSpec φd Whh Why h p label T t,
         Cw + ∑ t ∈ Finset.Ico 1 m,
            Matrix.vecMulVec (drawSpec φd Whh Why h p label T t) (h (t - 1)),
         Whh.transpose.mulVec (drawSpec φd Whh Why h p label T 0),
         fun t => if t < m then
            Wxh.transpose.mulVec (drawSpec φd Whh Why h p label T t)
          else dxa t⟩ := by
  intro m
  induction m with
  | zero =>
      intro _ A b Cw dxa
      have hd : dhEnter φd Whh Why h p label T 0 =
          Whh.transpose.mulVec (drawSpec φd Whh Why h p label T 0) := by
        rw [dhEnter, if_neg (by omega)]
      simp [bpttLoop, hd]
  | succ m ih =>
      intro hm A b Cw dxa
      have hdraw : (fun i => φd (h m i) * dhEnter φd Whh Why h p label T (m + 1) i)
          = drawSpec φd Whh Why h p label T m := by
        by_cases hmT : m + 1 = T
        · rw [dhEnter, if_pos hmT, drawSpec,
            show T - 1 - m = 0 by omega, drawSpecRev,
            show T - 1 = m by omega]
        · rw [dhEnter, if_neg hmT]
          simp only [drawSpec]
          rw [show T - 1 - m = (T - 2 - m) + 1 by omega, drawSpecRev,
            show T - 2 - (T - 2 - m) = m by omega,
            show T - 1 - (m + 1) = T - 2 - m by omega]
      have hstep : bpttStep φd Wxh Whh x h m
          ⟨A, b, Cw, dhEnter φd Whh Why h p label T (m + 1), dxa⟩ =
          ⟨A + Matrix.vecMulVec (drawSpec φd Whh Why h p label T m) (x m),
           b + drawSpec φd Whh Why h p label T m,
           if 0 < m then
             Cw + Matrix.vecMulVec (drawSpec φd Whh Why h p label T m) (h (m - 1))
           else Cw,
           Whh.transpose.mulVec (drawSpec φd Whh Why h p label T m),
           Function.update dxa m
             (Wxh.transpose.mulVec (drawSpec φd Whh Why h p label T m))⟩ := by
        rw [bpttStep]
        simp only [hdraw]
      have hd : Whh.transpose.mulVec (drawSpec φd Whh Why h p label T m) =
          dhEnter φd Whh Why h p label T m := by
        rw [dhEnter, if_neg (by omega)]
      rw [bpttLoop, hstep, hd, ih (by omega)]
      simp only [BpttState.mk.injEq]
      refine ⟨?_, ?_, ?_, trivial, ?_⟩
      · rw [Finset.sum_range_succ]; abel
      · rw [Finset.sum_range_succ]; abel
      · by_cases hm0 : 0 < m
        · rw [if_pos hm0, Finset.sum_Ico_succ_top (by omega)]; abel
        · have : m = 0 := by omega
          subst this
          simp
      · funext t
        by_cases htm : t < m
        · rw [if_pos htm, if_pos (by omega)]
        · rw [if_neg htm]
          by_cases hteq : t = m
          · subst hteq
            rw [Function.update_same, if_pos (by omega)]
          · rw [Function.update_noteq hteq, if_neg (by omega)]

lemma runBackwardPass_char (φd : F → F) (seq : List ℕ) (label : Fin C)
    (rate : F) (st : NetState F D V H C) (hT : 0 < seq.length) :
    runBackwardPass φd seq label rate st = some
      ⟨⟨runBackwardLookupLayer rate
          (fun t => if t < seq.length then
            dxSpec φd st.par.Wxh st.par.Whh st.par.Why st.h st.p label seq.length t
          else fun _ => 0) st.par.E seq 0,
        st.par.Wxh - rate •
          dWxhSpec φd st.par.Whh st.par.Why st.x st.h st.p label seq.length,
        st.par.Whh - rate •
          dWhhSpec φd st.par.Whh st.par.Why st.h st.p label seq.length,
        st.par.Why - rate •
          Matrix.vecMulVec (dySpec st.p label) (st.h (seq.length - 1)),
        st.par.bh - rate •
          dbhSpec φd st.par.Whh st.par.Why st.h st.p label seq.length,
        st.par.bY - rate • dySpec st.p label,
        if st.par.useHiddenStart then
          st.par.h0 - rate • st.par.Whh.transpose.mulVec
            (drawSpec φd st.par.Whh st.par.Why st.h st.p label seq.length 0)
        else st.par.h0,
        st.par.useHiddenStart⟩,
       st.x, st.h, st.y, st.p⟩ := by
  have hinit : st.par.Why.transpose.mulVec
      (Function.update st.p label (st.p label - 1)) =
      dhEnter φd st.par.Whh st.par.Why st.h st.p label seq.length seq.length := by
    rw [dhEnter, if_pos rfl]
    rfl
  unfold runBackwardPass
  rw [if_pos hT]
  dsimp only
  rw [hinit,
    bpttLoop_eq φd st.par.Wxh st.par.Whh st.par.Why st.x st.h st.p label
      seq.length hT seq.length le_rfl 0 0 0 (fun _ _ => 0)]
  simp only [zero_add]
  rfl

lemma logSumExp_real {C : ℕ} (hC : 0 < C) (y : Fin C → ℝ) :
    logSumExp Real.exp Real.log y = Real.log (∑ i, Real.exp (y i)) := by
  have hpos : (0 : ℝ) < ∑ i, Real.exp (y i) := by
    have : Nonempty (Fin C) := ⟨⟨0, hC⟩⟩
    exact Finset.sum_pos (fun i _ => Real.exp_pos (y i)) Finset.univ_nonempty
  have hfact : ∑ i, Real.exp (y i - vmax y) =
      Real.exp (-(vmax y)) * ∑ i, Real.exp (y i) := by
    rw [Finset.mul_sum]
    refine Finset.sum_congr rfl fun i _ => ?_
    rw [sub_eq_add_neg, Real.exp_add, mul_comm]
  rw [logSumExp, hfact, Real.log_mul (Real.exp_ne_zero _) (ne_of_gt hpos),
    Real.log_exp]
  ring

/-- A concrete all-zero network state over `ℚ` with one-dimensional sizes,
used to instantiate the hypotheses of the claim theorems. -/
def qState : NetState ℚ 1 1 1 1 :=
  ⟨⟨fun _ _ => 0, fun _ _ => 0, fun _ _ => 0, fun _ _ => 0,
    fun _ => 0, fun _ => 0, fun _ => 0, true⟩,
   fun _ _ => 0, fun _ _ => 0, fun _ => 0, fun _ => 0⟩

/-- C3: for every non-empty sequence the forward pass computes the hidden
states by the recurrence `h[:,t] = Activate(Wxh·X[:,t] + bh + Whh·h_prev)`
(`h_prev` starting at `h0` when enabled and at zero otherwise), reads out
`y = Why·h[:,T-1] + by` from the last timestep only, and sets
`p_i = exp(y_i - logsum)` with `logsum` the log-sum-exp of `y`. -/
theorem c3_forward_recurrence (aexp alog φ : F → F) (seq : List ℕ)
    (st : NetState F D V H C) (hv : ∀ w ∈ seq, w < V) (hT : 0 < seq.length) :
    ∃ st', runForwardPass aexp alog φ seq st = some st' ∧
      (∀ t, t < seq.length → st'.h t =
        hSpec φ st.par.Wxh st.par.Whh st.par.bh st'.x
          (if st.par.useHiddenStart then st.par.h0 else fun _ => 0) t) ∧
      st'.y = st.par.Why.mulVec (st'.h (seq.length - 1)) + st.par.bY ∧
      st'.p = fun i => aexp (st'.y i - logSumExp aexp alog st'.y) := by
  obtain ⟨st', h1, _, _, _, h5, _, h7, h8⟩ :=
    runForwardPass_char aexp alog φ seq st hv hT
  exact ⟨st', h1, h5, h7, h8⟩

theorem c3_forward_recurrence_witness :
    (∀ w ∈ ([0] : List ℕ), w < 1) ∧ (0 < ([0] : List ℕ).length) ∧
    (∃ st', runForwardPass id id id [0] qState = some st' ∧
      (∀ t, t < ([0] : List ℕ).length → st'.h t =
        hSpec id qState.par.Wxh qState.par.Whh qState.par.bh st'.x
          (if qState.par.useHiddenStart then qState.par.h0 else fun _ => 0) t) ∧
      st'.y = qState.par.Why.mulVec (st'.h (([0] : List ℕ).length - 1)) +
        qState.par.bY ∧
      st'.p = fun i => id (st'.y i - logSumExp id id st'.y)) :=
  ⟨by decide, by decide,
   c3_forward_recurrence id id id [0] qState (by decide) (by decide)⟩

/-- C5: the embedding lookup on a sequence of ids all in `[0, V)` succeeds,
producing one column per token with `X[:,t] = E[:, id_t + 1]` (the
out-of-range assertion is unreachable), and any sequence containing an id
outside `[0, V)` makes the lookup fail fatally. -/
theorem c5_lookup (E : Matrix (Fin D) (Fin (V + 1)) F) (seq : List ℕ) :
    ((∀ w ∈ seq, w < V) →
      ∃ xr, runForwardLookupLayer E seq 0 (fun _ _ => 0) = some xr ∧
        (∀ k w, seq.get? k = some w →
          ∃ j : Fin (V + 1), (j : ℕ) = 1 + w ∧ xr k = fun i => E i j) ∧
        (∀ t, seq.length ≤ t → xr t = fun _ => 0)) ∧
    ((∃ w ∈ seq, V ≤ w) →
      runForwardLookupLayer E seq 0 (fun _ _ => 0) = none) := by
  constructor
  · intro hv
    obtain ⟨xr, h1, h2, h3⟩ :=
      runForwardLookupLayer_valid E seq hv 0 (fun _ _ => 0)
    refine ⟨xr, h1, fun k w hk => ?_, fun t ht => h3 t (Or.inr (by omega))⟩
    simpa using h2 k w hk
  · intro hbad
    exact runForwardLookupLayer_invalid E seq hbad 0 (fun _ _ => 0)

theorem c5_lookup_witness :
    ((∀ w ∈ ([0, 1] : List ℕ), w < 2) ∧
      ∃ xr, @runForwardLookupLayer ℚ 1 2 (fun _ _ => 0) [0, 1] 0
          (fun _ _ => 0) = some xr ∧
        (∀ k w, ([0, 1] : List ℕ).get? k = some w →
          ∃ j : Fin 3, (j : ℕ) = 1 + w ∧ xr k = fun i => (0 : ℚ)) ∧
        (∀ t, ([0, 1] : List ℕ).length ≤ t → xr t = fun _ => 0)) ∧
    ((∃ w ∈ ([5] : List ℕ), 2 ≤ w) ∧
      @runForwardLookupLayer ℚ 1 2 (fun _ _ => 0) [5] 0 (fun _ _ => 0) =
        none) := by
  refine ⟨⟨by decide, ?_⟩, ⟨5, by decide, by decide⟩, ?_⟩
  · obtain ⟨xr, h1, h2, h3⟩ :=
      (@c5_lookup ℚ _ 1 2 (fun _ _ => 0) [0, 1]).1 (by decide)
    exact ⟨xr, h1, h2, h3⟩
  · exact (@c5_lookup ℚ _ 1 2 (fun _ _ => 0) [5]).2 ⟨5, by decide, by decide⟩

/-- C6: the embedding update subtracts `rate * dX[:,t]` from column
`token_t + 1` of `E` position by position (each occurrence is its own
sequential in-place update), so the final column for an id `w` equals its
starting value minus `rate` times the sum of the `dX` columns at the
positions where `w` occurs. -/
theorem c6_embedding_update (E : Matrix (Fin D) (Fin (V + 1)) F)
    (seq : List ℕ) (dX : ℕ → Fin D → F) (rate : F) (w : ℕ) (hw : w < V) :
    (∀ (E0 : Matrix (Fin D) (Fin (V + 1)) F) (t0 : ℕ),
      runBackwardLookupLayer rate dX E0 (w :: seq) t0 =
        runBackwardLookupLayer rate dX
          (Matrix.updateColumn E0 ⟨1 + w, by omega⟩
            (fun i => E0 i ⟨1 + w, by omega⟩ - rate * dX t0 i)) seq (t0 + 1)) ∧
    ∀ i, runBackwardLookupLayer rate dX E seq 0 i ⟨1 + w, by omega⟩ =
      E i ⟨1 + w, by omega⟩ -
        rate * ∑ k ∈ (Finset.range seq.length).filter
          (fun k => seq.get? k = some w), dX k i := by
  constructor
  · intro E0 t0
    rw [runBackwardLookupLayer, dif_pos (by omega)]
  · intro i
    rw [runBackwardLookupLayer_col rate dX seq w (by omega) E 0 i,
      Finset.sum_filter]
    simp

theorem c6_embedding_update_witness :
    ((0 : ℕ) < 2) ∧
    ((∀ (E0 : Matrix (Fin 1) (Fin 3) ℚ) (t0 : ℕ),
      @runBackwardLookupLayer ℚ _ 1 2 1 (fun _ _ => 1) E0 (0 :: [0, 1]) t0 =
        @runBackwardLookupLayer ℚ _ 1 2 1 (fun _ _ => 1)
          (Matrix.updateColumn E0 ⟨1 + 0, by omega⟩
            (fun i => E0 i ⟨1 + 0, by omega⟩ - 1 * (1 : ℚ))) [0, 1] (t0 + 1)) ∧
    ∀ i, @runBackwardLookupLayer ℚ _ 1 2 1 (fun _ _ => 1) (fun _ _ => 0)
        [0, 1] 0 i ⟨1 + 0, by omega⟩ =
      (0 : ℚ) - 1 * ∑ k ∈ (Finset.range ([0, 1] : List ℕ).length).filter
        (fun k => ([0, 1] : List ℕ).get? k = some 0), (1 : ℚ)) :=
  ⟨by decide, @c6_embedding_update ℚ _ 1 2 (fun _ _ => 0) [0, 1]
    (fun _ _ => 1) 1 0 (by decide)⟩

/-- C7: a backward pass on a sequence with valid token ids changes only the
embedding columns `token_t + 1` for positions `t` of the sequence; every
other column of `E` is unchanged. -/
theorem c7_embedding_locality (φd : F → F) (seq : List ℕ) (label : Fin C)
    (rate : F) (st : NetState F D V H C) (hv : ∀ w ∈ seq, w < V)
    (hT : 0 < seq.length) :
    ∃ st', runBackwardPass φd seq label rate st = some st' ∧
      ∀ j : Fin (V + 1), (∀ w ∈ seq, (j : ℕ) ≠ 1 + w) →
        ∀ i, st'.par.E i j = st.par.E i j := by
  rw [runBackwardPass_char φd seq label rate st hT]
  refine ⟨_, rfl, fun j hj i => ?_⟩
  exact runBackwardLookupLayer_frame rate _ seq j hj st.par.E 0 i

theorem c7_embedding_locality_witness :
    (∀ w ∈ ([0] : List ℕ), w < 1) ∧ (0 < ([0] : List ℕ).length) ∧
    (∃ st', runBackwardPass id [0] 0 1 qState = some st' ∧
      ∀ j : Fin 2, (∀ w ∈ ([0] : List ℕ), (j : ℕ) ≠ 1 + w) →
        ∀ i, st'.par.E i j = qState.par.E i j) :=
  ⟨by decide, by decide,
   c7_embedding_locality id [0] 0 1 qState (by decide) (by decide)⟩

/-- C9: the forward pass on a zero-length sequence produces no result: the
readout index `t = size - 1` is `-1` and the column access `h_.col(-1)` is
out of bounds (a fatal assertion in checked builds, undefined behaviour
otherwise) — modelled as `none` — instead of the explicit rejection the
specification requires. -/
theorem c9_empty_sequence (aexp alog φ : F → F) (st : NetState F D V H C) :
    runForwardPass aexp alog φ [] st = none := rfl

/-- C10: `Run` (forward pass plus argmax prediction) leaves every parameter
tensor (the whole `Params` record: `E`, `Wxh`, `Whh`, `Why`, `bh`, `by`,
`h0`) unchanged; only the trace members are overwritten. -/
theorem c10_run_frame (aexp alog φ : F → F) (seq : List ℕ)
    (st : NetState F D V H C) (hv : ∀ w ∈ seq, w < V) (hT : 0 < seq.length)
    (hC : 0 < C) :
    ∃ st1 pred, run aexp alog φ seq st = some (st1, pred) ∧
      st1.par = st.par := by
  obtain ⟨st', h1, hpar, _⟩ := runForwardPass_char aexp alog φ seq st hv hT
  refine ⟨st', (List.finRange C).foldl
    (fun best i => if st'.p best < st'.p i then i else best) ⟨0, hC⟩, ?_, hpar⟩
  unfold run
  rw [h1]
  show (argmaxIdx st'.p).map _ = _
  unfold argmaxIdx
  rw [dif_pos hC]
  rfl

theorem c10_run_frame_witness :
    (∀ w ∈ ([0] : List ℕ), w < 1) ∧ (0 < ([0] : List ℕ).length) ∧
    ((0 : ℕ) < 1) ∧
    (∃ st1 pred, run id id id [0] qState = some (st1, pred) ∧
      st1.par = qState.par) :=
  ⟨by decide, by decide, by decide,
   c10_run_frame id id id [0] qState (by decide) (by decide) (by decide)⟩

/-- C1: the backward pass, given the forward trace, updates every parameter
exactly by the spec BPTT recurrence: `dy = p` with `dy[ℓ]` decremented,
`dWhy = dy·h[:,T-1]ᵀ`, `dby = dy`, the hidden gradient is seeded with
`Whyᵀ·dy` and recursively `draw_t = Derivative(h[:,t]) ⊙ dh_t`,
`dh_t = Whhᵀ·draw_{t+1}` (no output contribution at earlier steps),
`dWxh = Σ_t draw_t·X[:,t]ᵀ`, `dbh = Σ_t draw_t`,
`dWhh = Σ_{t>0} draw_t·h[:,t-1]ᵀ`, the final `dh_next = Whhᵀ·draw_0` is the
gradient into `h0` (when enabled), every parameter is decremented by `rate`
times its accumulator, and the embedding update is invoked with
`dX[:,t] = Wxhᵀ·draw_t` and `rate`. -/
theorem c1_backward_bptt (φd : F → F) (seq : List ℕ) (label : Fin C)
    (rate : F) (st : NetState F D V H C) (hT : 0 < seq.length) :
    ∃ st', runBackwardPass φd seq label rate st = some st' ∧
      st'.par.Why = st.par.Why - rate •
        Matrix.vecMulVec (dySpec st.p label) (st.h (seq.length - 1)) ∧
      st'.par.bY = st.par.bY - rate • dySpec st.p label ∧
      st'.par.Wxh = st.par.Wxh - rate •
        dWxhSpec φd st.par.Whh st.par.Why st.x st.h st.p label seq.length ∧
      st'.par.bh = st.par.bh - rate •
        dbhSpec φd st.par.Whh st.par.Why st.h st.p label seq.length ∧
      st'.par.Whh = st.par.Whh - rate •
        dWhhSpec φd st.par.Whh st.par.Why st.h st.p label seq.length ∧
      st'.par.h0 = (if st.par.useHiddenStart then
        st.par.h0 - rate • st.par.Whh.transpose.mulVec
          (drawSpec φd st.par.Whh st.par.Why st.h st.p label seq.length 0)
        else st.par.h0) ∧
      st'.par.E = runBackwardLookupLayer rate
        (dxSpec φd st.par.Wxh st.par.Whh st.par.Why st.h st.p label seq.length)
        st.par.E seq 0 ∧
      st'.par.useHiddenStart = st.par.useHiddenStart := by
  rw [runBackwardPass_char φd seq label rate st hT]
  refine ⟨_, rfl, rfl, rfl, rfl, rfl, rfl, rfl, ?_, rfl⟩
  exact runBackwardLookupLayer_congr rate _ _ seq st.par.E 0
    fun t h0t htl => by rw [if_pos (by omega)]

theorem c1_backward_bptt_witness :
    (0 < ([0] : List ℕ).length) ∧
    (∃ st', runBackwardPass id [0] 0 1 qState = some st' ∧
      st'.par.Why = qState.par.Why - (1 : ℚ) •
        Matrix.vecMulVec (dySpec qState.p 0) (qState.h (([0] : List ℕ).length - 1)) ∧
      st'.par.bY = qState.par.bY - (1 : ℚ) • dySpec qState.p 0 ∧
      st'.par.Wxh = qState.par.Wxh - (1 : ℚ) •
        dWxhSpec id qState.par.Whh qState.par.Why qState.x qState.h qState.p 0
          ([0] : List ℕ).length ∧
      st'.par.bh = qState.par.bh - (1 : ℚ) •
        dbhSpec id qState.par.Whh qState.par.Why qState.h qState.p 0
          ([0] : List ℕ).length ∧
      st'.par.Whh = qState.par.Whh - (1 : ℚ) •
        dWhhSpec id qState.par.Whh qState.par.Why qState.h qState.p 0
          ([0] : List ℕ).length ∧
      st'.par.h0 = (if qState.par.useHiddenStart then
        qState.par.h0 - (1 : ℚ) • qState.par.Whh.transpose.mulVec
          (drawSpec id qState.par.Whh qState.par.Why qState.h qState.p 0
            ([0] : List ℕ).length 0)
        else qState.par.h0) ∧
      st'.par.E = runBackwardLookupLayer 1
        (dxSpec id qState.par.Wxh qState.par.Whh qState.par.Why qState.h
          qState.p 0 ([0] : List ℕ).length)
        qState.par.E [0] 0 ∧
      st'.par.useHiddenStart = qState.par.useHiddenStart) :=
  ⟨by decide, c1_backward_bptt id [0] 0 1 qState (by decide)⟩

/-- A concrete all-zero network state over `ℝ` with one-dimensional sizes,
used to instantiate the hypotheses of the real-valued claim theorems. -/
def rState : NetState ℝ 1 1 1 1 :=
  ⟨⟨fun _ _ => 0, fun _ _ => 0, fun _ _ => 0, fun _ _ => 0,
    fun _ => 0, fun _ => 0, fun _ => 0, true⟩,
   fun _ _ => 0, fun _ _ => 0, fun _ => 0, fun _ => 0⟩

/-- C4: every successful forward pass (non-empty valid sequence, at least one
class) produces a probability vector with `Σ p_i = 1` and `p_i > 0` for every
class, over exact real arithmetic. -/
theorem c4_probability_normalization (φ : ℝ → ℝ) (seq : List ℕ)
    (st : NetState ℝ D V H C) (hv : ∀ w ∈ seq, w < V) (hT : 0 < seq.length)
    (hC : 0 < C) :
    ∃ st', runForwardPass Real.exp Real.log φ seq st = some st' ∧
      (∑ i, st'.p i) = 1 ∧ ∀ i, 0 < st'.p i := by
  obtain ⟨st', h1, _, _, _, _, _, _, h8⟩ :=
    runForwardPass_char Real.exp Real.log φ seq st hv hT
  have hne : Nonempty (Fin C) := ⟨⟨0, hC⟩⟩
  have hpos : (0 : ℝ) < ∑ j, Real.exp (st'.y j) :=
    Finset.sum_pos (fun j _ => Real.exp_pos (st'.y j)) Finset.univ_nonempty
  refine ⟨st', h1, ?_, ?_⟩
  · simp only [h8]
    rw [logSumExp_real hC st'.y]
    have hterm : ∀ i : Fin C,
        Real.exp (st'.y i - Real.log (∑ j, Real.exp (st'.y j))) =
        Real.exp (st'.y i) / ∑ j, Real.exp (st'.y j) := fun i => by
      rw [Real.exp_sub, Real.exp_log hpos]
    rw [Finset.sum_congr rfl fun i _ => hterm i, ← Finset.sum_div,
      div_self (ne_of_gt hpos)]
  · intro i
    simp only [h8]
    exact Real.exp_pos _

theorem c4_probability_normalization_witness :
    (∀ w ∈ ([0] : List ℕ), w < 1) ∧ (0 < ([0] : List ℕ).length) ∧
    ((0 : ℕ) < 1) ∧
    (∃ st', runForwardPass Real.exp Real.log id [0] rState = some st' ∧
      (∑ i, st'.p i) = 1 ∧ ∀ i, 0 < st'.p i) :=
  ⟨by decide, by decide, by decide,
   c4_probability_normalization id [0] rState (by decide) (by decide)
     (by decide)⟩

lemma mul_add_lt {i m j n : ℕ} (hi : i < m) (hj : j < n) :
    i * n + j < m * n := by
  calc i * n + j < i * n + n := by omega
    _ = (i + 1) * n := by ring
    _ ≤ m * n := Nat.mul_le_mul_right n hi

lemma initWeight_abs_le (logistic : Bool) (rng : ℕ → ℕ) (randMax : ℕ)
    (hrm : 0 < randMax) (hb : ∀ k, rng k ≤ randMax) (off : ℕ) {m n : ℕ}
    (i : Fin m) (j : Fin n) :
    |(initWeight Real.sqrt logistic rng randMax off i j : ℝ)| ≤
      (if logistic then (4 : ℝ) else 1) * Real.sqrt (6 / ((n : ℝ) + (m : ℝ))) := by
  have hc : (0 : ℝ) ≤ (if logistic then (4 : ℝ) else 1) *
      Real.sqrt (6 / ((n : ℝ) + (m : ℝ))) := by
    have h4 : (0 : ℝ) ≤ if logistic then (4 : ℝ) else 1 := by
      cases logistic <;> norm_num
    exact mul_nonneg h4 (Real.sqrt_nonneg _)
  have hx0 : (0 : ℝ) ≤ (rng (off + (i : ℕ) * n + (j : ℕ)) : ℝ) / (randMax : ℝ) :=
    div_nonneg (Nat.cast_nonneg _) (Nat.cast_nonneg _)
  have hx1 : (rng (off + (i : ℕ) * n + (j : ℕ)) : ℝ) / (randMax : ℝ) ≤ 1 :=
    div_le_one_of_le (Nat.cast_le.mpr (hb _)) (Nat.cast_nonneg _)
  have hu : |2 * (rng (off + (i : ℕ) * n + (j : ℕ)) : ℝ) / (randMax : ℝ) - 1| ≤ 1 := by
    rw [mul_div_assoc]
    exact abs_le.mpr ⟨by linarith, by linarith⟩
  rw [initWeight, abs_mul, abs_of_nonneg hc]
  calc (if logistic then (4 : ℝ) else 1) * Real.sqrt (6 / ((n : ℝ) + (m : ℝ))) *
        |2 * (rng (off + (i : ℕ) * n + (j : ℕ)) : ℝ) / (randMax : ℝ) - 1| ≤
      (if logistic then (4 : ℝ) else 1) * Real.sqrt (6 / ((n : ℝ) + (m : ℝ))) * 1 :=
        mul_le_mul_of_nonneg_left hu hc
    _ = (if logistic then (4 : ℝ) else 1) * Real.sqrt (6 / ((n : ℝ) + (m : ℝ))) :=
        mul_one _

/-- C8: `InitializeParameters` zeroes every bias/state vector and fills each
registered weight matrix (the embedding matrix included) with entries
`max * (2*rand()/RAND_MAX - 1)`, which lie in `[-max, max]` for
`max = c·sqrt(6/(fan_in + fan_out))` with `fan_in` the column count,
`fan_out` the row count, and `c = 4` exactly when the activation is the
logistic sigmoid (`c = 1` otherwise); the result depends only on the first
`D(V+1) + HD + HH + CH` draws of the seeded stream, so a fixed seed gives
identical parameters. -/
theorem c8_initialize_parameters (logistic : Bool) (rng rng' : ℕ → ℕ)
    (randMax : ℕ) (useHiddenStart : Bool) (hrm : 0 < randMax)
    (hb : ∀ k, rng k ≤ randMax) :
    (initializeParameters Real.sqrt logistic rng randMax useHiddenStart :
        Params ℝ D V H C).bh = 0 ∧
    (initializeParameters Real.sqrt logistic rng randMax useHiddenStart :
        Params ℝ D V H C).bY = 0 ∧
    (initializeParameters Real.sqrt logistic rng randMax useHiddenStart :
        Params ℝ D V H C).h0 = 0 ∧
    (∀ (i : Fin D) (j : Fin (V + 1)),
      |(initializeParameters Real.sqrt logistic rng randMax useHiddenStart :
          Params ℝ D V H C).E i j| ≤
        (if logistic then (4 : ℝ) else 1) *
          Real.sqrt (6 / (((V + 1 : ℕ) : ℝ) + (D : ℝ)))) ∧
    (∀ (i : Fin H) (j : Fin D),
      |(initializeParameters Real.sqrt logistic rng randMax useHiddenStart :
          Params ℝ D V H C).Wxh i j| ≤
        (if logistic then (4 : ℝ) else 1) *
          Real.sqrt (6 / ((D : ℝ) + (H : ℝ)))) ∧
    (∀ (i : Fin H) (j : Fin H),
      |(initializeParameters Real.sqrt logistic rng randMax useHiddenStart :
          Params ℝ D V H C).Whh i j| ≤
        (if logistic then (4 : ℝ) else 1) *
          Real.sqrt (6 / ((H : ℝ) + (H : ℝ)))) ∧
    (∀ (i : Fin C) (j : Fin H),
      |(initializeParameters Real.sqrt logistic rng randMax useHiddenStart :
          Params ℝ D V H C).Why i j| ≤
        (if logistic then (4 : ℝ) else 1) *
          Real.sqrt (6 / ((H : ℝ) + (C : ℝ)))) ∧
    ((∀ k, k < D * (V + 1) + H * D + H * H + C * H → rng k = rng' k) →
      (initializeParameters Real.sqrt logistic rng randMax useHiddenStart :
        Params ℝ D V H C) =
      initializeParameters Real.sqrt logistic rng' randMax useHiddenStart) := by
  refine ⟨rfl, rfl, rfl, ?_, ?_, ?_, ?_, ?_⟩
  · intro i j; exact initWeight_abs_le logistic rng randMax hrm hb 0 i j
  · intro i j; exact initWeight_abs_le logistic rng randMax hrm hb _ i j
  · intro i j; exact initWeight_abs_le logistic rng randMax hrm hb _ i j
  · intro i j; exact initWeight_abs_le logistic rng randMax hrm hb _ i j
  · intro hag
    have hw : ∀ (off lim : ℕ) (m n : ℕ), off + m * n ≤ lim →
        lim = D * (V + 1) + H * D + H * H + C * H →
        (initWeight Real.sqrt logistic rng randMax off :
          Matrix (Fin m) (Fin n) ℝ) =
        initWeight Real.sqrt logistic rng' randMax off := by
      intro off lim m n hoff hlim
      funext i j
      rw [initWeight, initWeight, hag (off + (i : ℕ) * n + (j : ℕ))]
      have := mul_add_lt i.isLt j.isLt
      omega
    rw [initializeParameters, initializeParameters,
      hw 0 _ D (V + 1) (by omega) rfl,
      hw (D * (V + 1)) _ H D (by omega) rfl,
      hw (D * (V + 1) + H * D) _ H H (by omega) rfl,
      hw (D * (V + 1) + H * D + H * H) _ C H (by omega) rfl]

theorem c8_initialize_parameters_witness :
    ((0 : ℕ) < 1) ∧ (∀ k : ℕ, (fun _ => 0 : ℕ → ℕ) k ≤ 1) ∧
    ((@initializeParameters ℝ _ 1 1 1 1 Real.sqrt true (fun _ => 0) 1 true).bh
        = 0 ∧
      (@initializeParameters ℝ _ 1 1 1 1 Real.sqrt true (fun _ => 0) 1
        true).bY = 0 ∧
      (@initializeParameters ℝ _ 1 1 1 1 Real.sqrt true (fun _ => 0) 1
        true).h0 = 0 ∧
      (∀ (i : Fin 1) (j : Fin 2),
        |(@initializeParameters ℝ _ 1 1 1 1 Real.sqrt true (fun _ => 0) 1
            true).E i j| ≤
          (if true then (4 : ℝ) else 1) *
            Real.sqrt (6 / (((1 + 1 : ℕ) : ℝ) + ((1 : ℕ) : ℝ)))) ∧
      (∀ (i : Fin 1) (j : Fin 1),
        |(@initializeParameters ℝ _ 1 1 1 1 Real.sqrt true (fun _ => 0) 1
            true).Wxh i j| ≤
          (if true then (4 : ℝ) else 1) *
            Real.sqrt (6 / (((1 : ℕ) : ℝ) + ((1 : ℕ) : ℝ)))) ∧
      (∀ (i : Fin 1) (j : Fin 1),
        |(@initializeParameters ℝ _ 1 1 1 1 Real.sqrt true (fun _ => 0) 1
            true).Whh i j| ≤
          (if true then (4 : ℝ) else 1) *
            Real.sqrt (6 / (((1 : ℕ) : ℝ) + ((1 : ℕ) : ℝ)))) ∧
      (∀ (i : Fin 1) (j : Fin 1),
        |(@initializeParameters ℝ _ 1 1 1 1 Real.sqrt true (fun _ => 0) 1
            true).Why i j| ≤
          (if true then (4 : ℝ) else 1) *
            Real.sqrt (6 / (((1 : ℕ) : ℝ) + ((1 : ℕ) : ℝ)))) ∧
      ((∀ k, k < 1 * (1 + 1) + 1 * 1 + 1 * 1 + 1 * 1 →
          (fun _ => 0 : ℕ → ℕ) k = (fun _ => 0 : ℕ → ℕ) k) →
        @initializeParameters ℝ _ 1 1 1 1 Real.sqrt true (fun _ => 0) 1 true =
        @initializeParameters ℝ _ 1 1 1 1 Real.sqrt true (fun _ => 0) 1
          true)) :=
  ⟨by decide, fun k => Nat.zero_le 1,
   @c8_initialize_parameters 1 1 1 1 true (fun _ => 0) (fun _ => 0) 1 true
     (by decide) (fun k => Nat.zero_le 1)⟩

/-- A one-step network over `ℝ` exhibiting the missing `dWhh` term: sizes
`D = V = H = 1`, `C = 2`; the embedding and `Wxh` are zero, `bh = by = 0`,
`h0 = 1` with the learned initial state enabled, `Why = (1, 0)ᵀ`, and the
single recurrent weight `Whh` carries the value `s`.  With the identity
activation the loss for label `1` on the sequence `[0]` is
`log(exp s + 1)`. -/
def bugState (s : ℝ) : NetState ℝ 1 1 1 2 :=
  ⟨⟨fun _ _ => 0, fun _ _ => 0, fun _ _ => s,
    fun i _ => if i = 0 then 1 else 0,
    fun _ => 0, fun _ => 0, fun _ => 1, true⟩,
   fun _ _ => 0, fun _ _ => 0, fun _ => 0, fun _ => 0⟩

/-- C2: the gradient accumulators are not the exact analytic partial
derivatives of the loss.  For any one-step sequence the backward pass leaves
`Whh` untouched (the `t = 0` term of `dWhh` is skipped by the `t > 0` guard),
yet on the concrete one-step network `bugState` the loss as a function of the
`Whh` entry is `s ↦ log(exp s + 1)`, whose derivative at `s = 1` is
`exp 1 / (exp 1 + 1) ≠ 0`: the code's `dWhh = 0` misses the contribution
`draw_0 · h_initᵀ` of the initial hidden state fed into timestep 0. -/
theorem c2_whh_gradient_missing_term :
    (∀ (st : NetState ℝ 1 1 1 2) (label : Fin 2) (rate : ℝ),
      ∃ st', runBackwardPass (fun _ => 1) [0] label rate st = some st' ∧
        st'.par.Whh = st.par.Whh) ∧
    (∀ s : ℝ, (runForwardPass Real.exp Real.log id [0] (bugState s)).elim 0
        (fun st1 => -Real.log (st1.p 1)) = Real.log (Real.exp s + 1)) ∧
    HasDerivAt (fun s : ℝ => (runForwardPass Real.exp Real.log id [0]
        (bugState s)).elim 0 (fun st1 => -Real.log (st1.p 1)))
      (Real.exp 1 / (Real.exp 1 + 1)) 1 ∧
    Real.exp 1 / (Real.exp 1 + 1) ≠ 0 := by
  have part2 : ∀ s : ℝ, (runForwardPass Real.exp Real.log id [0]
      (bugState s)).elim 0 (fun st1 => -Real.log (st1.p 1)) =
      Real.log (Real.exp s + 1) := by
    intro s
    obtain ⟨st', h1, _, hcols, _, hh, _, hy, hp⟩ :=
      runForwardPass_char Real.exp Real.log id [0] (bugState s) (by decide)
        (by decide)
    rw [h1]
    simp only [Option.elim]
    have hh0 : st'.h 0 = fun _ => s := by
      rw [hh 0 (by decide), hSpec]
      funext i
      simp [bugState, Matrix.mulVec, Matrix.dotProduct, Fin.sum_univ_one]
    have hyv : st'.y = fun i : Fin 2 => if i = 0 then s else 0 := by
      rw [hy, show ([0] : List ℕ).length - 1 = 0 from rfl, hh0]
      funext i
      simp [bugState, Matrix.mulVec, Matrix.dotProduct, Fin.sum_univ_one,
        ite_mul, one_mul, zero_mul]
    have hls : logSumExp Real.exp Real.log st'.y =
        Real.log (Real.exp s + 1) := by
      rw [logSumExp_real (by decide) st'.y, hyv, Fin.sum_univ_two]
      norm_num [Real.exp_zero]
    simp only [hp]
    rw [Real.log_exp, hls, hyv]
    simp
  refine ⟨?_, part2, ?_, ?_⟩
  · intro st label rate
    rw [runBackwardPass_char (fun _ => 1) [0] label rate st (by decide)]
    refine ⟨_, rfl, ?_⟩
    simp [dWhhSpec]
  · have hfun : (fun s : ℝ => (runForwardPass Real.exp Real.log id [0]
        (bugState s)).elim 0 (fun st1 => -Real.log (st1.p 1))) =
        fun s : ℝ => Real.log (Real.exp s + 1) := funext part2
    rw [hfun]
    exact ((Real.hasDerivAt_exp 1).add_const 1).log (by positivity)
  · exact div_ne_zero (Real.exp_ne_zero 1) (by positivity)

end AttentiveRnn
